import Mathlib

/-!
Verification of the COT (Commitments of Traders) fetch/normalization pipeline
(`fetch_cot.py`).  The pure core of the script is shallowly embedded here:

* raw CSV records are association lists from column name to string value
  (Python `dict.get(k, default)` becomes an `Option`-returning lookup);
* `datetime` values produced by `parse_date` are `Date` triples compared
  lexicographically, and `strftime('%Y-%m-%d')` is modelled by `fmtDate`
  (zero padded, as on the reachable year range 1..9999);
* `list.sort(key=parse_date, reverse=True)` is a stable descending sort,
  modelled by insertion sort (`sortRows`), which is extensionally the unique
  stable sort for the key order;
* Python `float`/`int` coercion in `safe_int` is modelled over exact
  rationals: a decimal literal with optional sign, fraction and exponent is
  parsed exactly and truncated toward zero.  (Binary64 representation error,
  `inf`/`nan` literals and underscore separators are outside the model; none
  of the verified properties depend on them.)  `round(x, 1)` is modelled as
  exact half-to-even rounding at one decimal (`pyRound1`).
* functions that would raise `IndexError`/`ValueError` on empty input
  (`build_result`, and the driver `fetch_cot_data` that calls it) return
  `Option`, with `none` standing for an uncaught exception;
* the network/archive collaborators are parameters: `fetch_cot_data` takes
  the parsed TFF and Legacy record lists, and `gatherTff` models the
  per-year candidate-URL loop, every candidate being `none` (fetch failed)
  or `some rows` (fetched and parsed).
-/

namespace CotFetch

/-! Characters and strings -/

/-- Numeric value of an ASCII digit character. -/
def digVal (c : Char) : Nat := c.toNat - 48

/-- Model of Python `str.strip()`: drop whitespace from both ends. -/
def stripStr (s : String) : String :=
  String.mk (((s.toList.dropWhile Char.isWhitespace).reverse.dropWhile
    Char.isWhitespace).reverse)

/-- Model of Python `str.upper()` (ASCII). -/
def upperStr (s : String) : String := String.mk (s.toList.map Char.toUpper)

/-- Does the second list start with the first one? -/
def startsWithCh : List Char → List Char → Bool
  | [], _ => true
  | _ :: _, [] => false
  | a :: as, b :: bs => a == b && startsWithCh as bs

/-- Model of Python `needle in hay` substring containment. -/
def hasSubstr (needle : List Char) : List Char → Bool
  | [] => needle.isEmpty
  | b :: bs => startsWithCh needle (b :: bs) || hasSubstr needle bs

/-! Raw records -/

/-- A raw CSV record: column name to string value, as produced by
`csv.DictReader`. -/
abbrev Rec := List (String × String)

/-- Lookup `row.get(key)`, returning `None` when the column is absent. -/
def getCol (r : Rec) (k : String) : Option String := List.lookup k r

/-- Lookup `row.get(key, '')`. -/
def getStr (r : Rec) (k : String) : String := (getCol r k).getD ""

/-! Dates (`parse_date`, `strftime`) -/

/-- A `datetime.date` as produced by `parse_date`. -/
structure Date where
  year : Nat
  month : Nat
  day : Nat
deriving DecidableEq, Repr

/-- Gregorian leap-year rule used by `datetime`. -/
def isLeapYear (y : Nat) : Bool := y % 4 == 0 && (y % 100 != 0 || y % 400 == 0)

/-- Number of days in a month, as validated by the `datetime` constructor. -/
def daysInMonth (y m : Nat) : Nat :=
  if m = 2 then (if isLeapYear y then 29 else 28)
  else if m = 4 ∨ m = 6 ∨ m = 9 ∨ m = 11 then 30
  else 31

/-- Exactly two digits (the `%y`, and the two-digit month/day cases of
`strptime('%y%m%d')`). -/
def num2 : List Char → Option Nat
  | [a, b] =>
    if a.isDigit && b.isDigit then some (digVal a * 10 + digVal b) else none
  | _ => none

/-- Exactly four digits (`%Y`). -/
def num4 : List Char → Option Nat
  | [a, b, c, d] =>
    if a.isDigit && b.isDigit && c.isDigit && d.isDigit then
      some (digVal a * 1000 + digVal b * 100 + digVal c * 10 + digVal d)
    else none
  | _ => none

/-- One or two digits (`%m`/`%d` in `strptime('%Y-%m-%d')`). -/
def num12 : List Char → Option Nat
  | [a] => if a.isDigit then some (digVal a) else none
  | [a, b] =>
    if a.isDigit && b.isDigit then some (digVal a * 10 + digVal b) else none
  | _ => none

/-- Split a character list on `'-'` (all occurrences, like `str.split('-')`). -/
def splitDash : List Char → List (List Char)
  | [] => [[]]
  | c :: rest =>
    if c = '-' then [] :: splitDash rest
    else
      match splitDash rest with
      | [] => [[c]]
      | p :: ps => (c :: p) :: ps

/-- Model of `datetime.strptime(s, '%Y-%m-%d')`: four-digit year, one-or-two-digit
month and day, full match, calendar-validated; `None` models `ValueError`. -/
def parseISO (s : String) : Option Date :=
  match splitDash s.toList with
  | [ys, ms, ds] =>
    match num4 ys, num12 ms, num12 ds with
    | some y, some m, some d =>
      if 1 ≤ y ∧ 1 ≤ m ∧ m ≤ 12 ∧ 1 ≤ d ∧ d ≤ daysInMonth y m then
        some ⟨y, m, d⟩
      else none
    | _, _, _ => none
  | _ => none

/-- Model of `datetime.strptime(s, '%y%m%d')` on a six-character string: two digits
each for year, month, day; `%y` maps 00-68 to 2000-2068 and 69-99 to
1969-1999. -/
def parseYYMMDD (s : String) : Option Date :=
  match s.toList with
  | [a, b, c, d, e, f] =>
    match num2 [a, b], num2 [c, d], num2 [e, f] with
    | some yy, some m, some dd =>
      if 1 ≤ m ∧ m ≤ 12 ∧ 1 ≤ dd ∧
          dd ≤ daysInMonth (if yy ≤ 68 then 2000 + yy else 1900 + yy) m then
        some ⟨if yy ≤ 68 then 2000 + yy else 1900 + yy, m, dd⟩
      else none
    | _, _, _ => none
  | _ => none

/-- One iteration of the `for key in [...]` loop body of `parse_date`:
strip the value; on a non-empty value containing `'-'` try the ISO format on
the first ten characters, otherwise on a six-character value try `%y%m%d`;
`none` means "fall through to the next key". -/
def tryKey (r : Rec) (k : String) : Option Date :=
  let val := stripStr (getStr r k)
  if val = "" then none
  else if val.toList.contains '-' then parseISO (String.mk (val.toList.take 10))
  else if val.toList.length = 6 then parseYYMMDD val
  else none

/-- Function `parse_date(row)`: try `Report_Date_as_YYYY-MM-DD`, then
`As_of_Date_In_Form_YYMMDD`, else the sentinel `datetime(2000, 1, 1)`. -/
def parse_date (r : Rec) : Date :=
  match tryKey r "Report_Date_as_YYYY-MM-DD" with
  | some d => d
  | none =>
    match tryKey r "As_of_Date_In_Form_YYMMDD" with
    | some d => d
    | none => ⟨2000, 1, 1⟩

/-- Whether one of the two date columns parsed (i.e. the sentinel branch of
`parse_date` was not taken). -/
def parsedOk (r : Rec) : Bool :=
  (tryKey r "Report_Date_as_YYYY-MM-DD").isSome ||
    (tryKey r "As_of_Date_In_Form_YYMMDD").isSome

/-- Format `d.strftime('%Y-%m-%d')` for years up to 9999 (zero padded). -/
def fmtDate (d : Date) : String :=
  String.mk [Nat.digitChar (d.year / 1000), Nat.digitChar (d.year / 100 % 10),
    Nat.digitChar (d.year / 10 % 10), Nat.digitChar (d.year % 10), '-',
    Nat.digitChar (d.month / 10), Nat.digitChar (d.month % 10), '-',
    Nat.digitChar (d.day / 10), Nat.digitChar (d.day % 10)]

/-- Deduplication key `parse_date(row).strftime('%Y-%m-%d')`. -/
def fmt (r : Rec) : String := fmtDate (parse_date r)

/-- Comparison of `datetime` values: lexicographic on (year, month, day). -/
def dateLt (a b : Date) : Bool :=
  a.year < b.year ||
    (a.year == b.year &&
      (a.month < b.month || (a.month == b.month && a.day < b.day)))

/-- Numeric sort key; an order embedding of the lexicographic `datetime`
order whenever month and day are below 100. -/
def toKey (d : Date) : Nat := d.year * 10000 + d.month * 100 + d.day

/-- The dates `parse_date` can produce. -/
def ValidDate (d : Date) : Prop :=
  1 ≤ d.year ∧ d.year ≤ 9999 ∧ 1 ≤ d.month ∧ d.month ≤ 12 ∧
    1 ≤ d.day ∧ d.day ≤ 31

/-! `safe_int` -/

/-- Value of a digit string, most significant first. -/
def digitsVal (l : List Char) : Nat := l.foldl (fun a c => a * 10 + digVal c) 0

/-- Power `10 ** e` for a signed exponent, over `ℚ`. -/
def tenPow (e : Int) : Rat :=
  if 0 ≤ e then ((10 : Rat) ^ e.toNat) else ((10 : Rat) ^ (-e).toNat)⁻¹

/-- Mantissa of a Python float literal: `D+`, `D+.D*` or `.D+`; returns the
exact value and the unconsumed remainder. -/
def parseMantissa (l : List Char) : Option (Rat × List Char) :=
  let ip := l.takeWhile Char.isDigit
  let r1 := l.dropWhile Char.isDigit
  match r1 with
  | '.' :: r2 =>
    let fp := r2.takeWhile Char.isDigit
    let r3 := r2.dropWhile Char.isDigit
    if ip.isEmpty && fp.isEmpty then none
    else some (((digitsVal ip : Nat) : Rat) +
      ((digitsVal fp : Nat) : Rat) / ((10 : Rat) ^ fp.length), r3)
  | _ => if ip.isEmpty then none else some (((digitsVal ip : Nat) : Rat), r1)

/-- Exponent part after `e`/`E`: optional sign then digits, consuming the
whole remainder. -/
def parseExpPart (l : List Char) : Option Int :=
  match l with
  | '+' :: t =>
    if t ≠ [] ∧ t.all Char.isDigit then some ((digitsVal t : Nat) : Int)
    else none
  | '-' :: t =>
    if t ≠ [] ∧ t.all Char.isDigit then some (-((digitsVal t : Nat) : Int))
    else none
  | t =>
    if t ≠ [] ∧ t.all Char.isDigit then some ((digitsVal t : Nat) : Int)
    else none

/-- Model of Python `float(s)` on decimal literals, as an exact rational;
`none` models `ValueError`. -/
def pyFloat (s : String) : Option Rat :=
  match (stripStr s).toList with
  | [] => none
  | c :: cs =>
    let sg : Rat := if c = '-' then -1 else 1
    let body := if c = '-' ∨ c = '+' then cs else c :: cs
    match parseMantissa body with
    | none => none
    | some (q, rest) =>
      match rest with
      | [] => some (sg * q)
      | e :: t =>
        if e = 'e' ∨ e = 'E' then
          match parseExpPart t with
          | some ex => some (sg * q * tenPow ex)
          | none => none
        else none

/-- Python `int(x)` on a float: truncation toward zero. -/
def pyTrunc (q : Rat) : Int := if 0 ≤ q then ⌊q⌋ else ⌈q⌉

/-- Coercion `safe_int(row, key) = int(float(row.get(key, 0) or 0))` guarded by
`try/except` returning 0; absent column gives the integer 0, a falsy (empty)
string gives 0 via `or 0`, a parse failure gives 0 via `except`. -/
def safe_int (row : Rec) (key : String) : Int :=
  match getCol row key with
  | none => 0
  | some v =>
    if v = "" then 0
    else
      match pyFloat v with
      | some q => pyTrunc q
      | none => 0

/-! `find_rows` -/

/-- Records whose (stripped) value in the given market-code column equals
the code exactly. -/
def codeMatches (all_rows : List Rec) (col code : String) : List Rec :=
  all_rows.filter (fun r => stripStr (getStr r col) == code)

/-- Records whose `Market_and_Exchange_Names` contains the searched name,
case-insensitively. -/
def nameMatches (all_rows : List Rec) (name_search : String) : List Rec :=
  all_rows.filter (fun r =>
    hasSubstr (upperStr name_search).toList
      (upperStr (getStr r "Market_and_Exchange_Names")).toList)

/-- Matcher `find_rows`: probe the two known market-code column names in order,
returning the first non-empty exact match, else fall back to the
case-insensitive name search. -/
def find_rows (all_rows : List Rec) (code name_search : String) : List Rec :=
  let m1 := codeMatches all_rows "CFTC_Contract_Market_Code" code
  if m1 ≠ [] then m1
  else
    let m2 := codeMatches all_rows "CFTC_Contract_MarketCode" code
    if m2 ≠ [] then m2
    else nameMatches all_rows name_search

/-! Sorting and deduplication -/

/-- Insert a record into a descending-by-date list, after every record with
a strictly newer date and before the first record whose date is not newer:
the insertion step of a stable descending sort, modelling
`rows.sort(key=parse_date, reverse=True)`. -/
def insertDesc (r : Rec) : List Rec → List Rec
  | [] => [r]
  | x :: xs =>
    if dateLt (parse_date r) (parse_date x) then x :: insertDesc r xs
    else r :: x :: xs

/-- Stable sort, descending by `parse_date`. -/
def sortRows (rows : List Rec) : List Rec := rows.foldr insertDesc []

/-- The `seen`-set loop of the deduplication: keep a record iff its
formatted date has not been seen yet. -/
def dedupGo (seen : List String) : List Rec → List Rec
  | [] => []
  | x :: xs =>
    if fmt x ∈ seen then dedupGo seen xs
    else x :: dedupGo (fmt x :: seen) xs

/-- Deduplicate by formatted date, keeping first occurrences. -/
def dedupRows (l : List Rec) : List Rec := dedupGo [] l

/-! Weekly observations -/

/-- The per-week dict built by `process_tff_rows` / `process_legacy_rows`. -/
structure Obs where
  date : String
  lev_long : Int
  lev_short : Int
  net_lev : Int
  asset_long : Int
  asset_short : Int
  net_asset : Int
  dealer_long : Int
  dealer_short : Int
  nonrept_long : Int
  nonrept_short : Int
  net_noncomm : Int
  noncomm_long : Int
  noncomm_short : Int
  comm_long : Int
  comm_short : Int
  net_comm : Int
deriving DecidableEq, Repr

/-- Loop body of `process_tff_rows`: TFF (disaggregated) column mapping. -/
def toTffObs (row : Rec) : Obs :=
  let lev_long := safe_int row "Lev_Money_Positions_Long_All"
  let lev_short := safe_int row "Lev_Money_Positions_Short_All"
  let asset_long := safe_int row "Asset_Mgr_Positions_Long_All"
  let asset_short := safe_int row "Asset_Mgr_Positions_Short_All"
  let dealer_long := safe_int row "Dealer_Positions_Long_All"
  let dealer_short := safe_int row "Dealer_Positions_Short_All"
  let nr_long := safe_int row "NonRept_Positions_Long_All"
  let nr_short := safe_int row "NonRept_Positions_Short_All"
  let net_lev := lev_long - lev_short
  let net_asset := asset_long - asset_short
  { date := fmtDate (parse_date row)
    lev_long := lev_long, lev_short := lev_short, net_lev := net_lev
    asset_long := asset_long, asset_short := asset_short
    net_asset := net_asset
    dealer_long := dealer_long, dealer_short := dealer_short
    nonrept_long := nr_long, nonrept_short := nr_short
    net_noncomm := net_lev + net_asset
    noncomm_long := lev_long, noncomm_short := lev_short
    comm_long := asset_long, comm_short := asset_short
    net_comm := net_asset }

/-- Loop body of `process_legacy_rows`: legacy column mapping. -/
def toLegacyObs (row : Rec) : Obs :=
  let nc_long := safe_int row "NonComm_Positions_Long_All"
  let nc_short := safe_int row "NonComm_Positions_Short_All"
  let c_long := safe_int row "Comm_Positions_Long_All"
  let c_short := safe_int row "Comm_Positions_Short_All"
  let nr_long := safe_int row "NonRept_Positions_Long_All"
  let nr_short := safe_int row "NonRept_Positions_Short_All"
  let net_nc := nc_long - nc_short
  { date := fmtDate (parse_date row)
    lev_long := nc_long, lev_short := nc_short, net_lev := net_nc
    asset_long := c_long, asset_short := c_short
    net_asset := c_long - c_short
    dealer_long := 0, dealer_short := 0
    nonrept_long := nr_long, nonrept_short := nr_short
    net_noncomm := net_nc
    noncomm_long := nc_long, noncomm_short := nc_short
    comm_long := c_long, comm_short := c_short
    net_comm := c_long - c_short }

/-- Pipeline `process_tff_rows`: sort descending, deduplicate, truncate to 52,
convert each retained record. -/
def process_tff_rows (rows : List Rec) : List Obs :=
  ((dedupRows (sortRows rows)).take 52).map toTffObs

/-- Pipeline `process_legacy_rows`: same windowing, legacy field mapping. -/
def process_legacy_rows (rows : List Rec) : List Obs :=
  ((dedupRows (sortRows rows)).take 52).map toLegacyObs

/-! `add_cot_index` -/

/-- Python `max(l)` on a non-empty list (0 on `[]`, unreachable in use). -/
def maxOf : List Int → Int
  | [] => 0
  | x :: xs => xs.foldl max x

/-- Python `min(l)` on a non-empty list (0 on `[]`, unreachable in use). -/
def minOf : List Int → Int
  | [] => 0
  | x :: xs => xs.foldl min x

/-- Round half to even to the nearest integer (Python `round`), on exact
rationals. -/
def rhe (q : Rat) : Int :=
  if q - (⌊q⌋ : Rat) < 1 / 2 then ⌊q⌋
  else if 1 / 2 < q - (⌊q⌋ : Rat) then ⌊q⌋ + 1
  else if ⌊q⌋ % 2 = 0 then ⌊q⌋
  else ⌊q⌋ + 1

/-- Rounding `round(q, 1)`: round half to even at one decimal place, exactly. -/
def pyRound1 (q : Rat) : Rat := ((rhe (q * 10) : Int) : Rat) / 10

/-- An `Obs` after `add_cot_index` added the `cot_index` and `wow_change`
keys to the dict. -/
structure ObsIdx extends Obs where
  cot_index : Rat
  wow_change : Int
deriving DecidableEq, Repr

/-- Loop body of `add_cot_index`, carrying the current position `i`; `nets`,
`min_net`, `rng` and `len` are the values computed before the loop. -/
def addIdxGo (nets : List Int) (min_net rng : Int) (len : Nat) :
    Nat → List Obs → List ObsIdx
  | _, [] => []
  | i, w :: ws =>
    { toObs := w
      cot_index :=
        pyRound1 ((((w.net_noncomm - min_net : Int) : Rat)) / (rng : Rat) * 100)
      wow_change :=
        if i < len - 1 then w.net_noncomm - nets.getD (i + 1) 0 else 0 } ::
      addIdxGo nets min_net rng len (i + 1) ws

/-- Loop `add_cot_index`: empty input unchanged; otherwise compute the window
extrema of `net_noncomm`, the range (1 when the extrema coincide), and
annotate every observation with its rolling index and week-over-week
change. -/
def add_cot_index (weekly : List Obs) : List ObsIdx :=
  match weekly with
  | [] => []
  | w :: ws =>
    let nets := (w :: ws).map (fun x => x.net_noncomm)
    let max_net := maxOf nets
    let min_net := minOf nets
    let rng := if max_net ≠ min_net then max_net - min_net else 1
    addIdxGo nets min_net rng (w :: ws).length 0 (w :: ws)

/-! `build_result` and the output envelope -/

/-- The per-instrument summary dict; `w52_high`/`w52_low` stand for the
source's `52w_high`/`52w_low` keys (Lean names cannot start with a digit). -/
structure Result where
  weeks : List ObsIdx
  latest : ObsIdx
  w52_high : Int
  w52_low : Int
  cot_index : Rat
deriving DecidableEq, Repr

/-- Builder `build_result(weekly)`; `none` models the `IndexError`/`ValueError`
raised by `weekly[0]` / `max(...)` on an empty list. -/
def build_result : List ObsIdx → Option Result
  | [] => none
  | w :: ws =>
    some { weeks := w :: ws
           latest := w
           w52_high := maxOf ((w :: ws).map (fun o => o.toObs.net_noncomm))
           w52_low := minOf ((w :: ws).map (fun o => o.toObs.net_noncomm))
           cot_index := w.cot_index }

/-- The `TFF_CODES` dict, in insertion order. -/
def TFF_CODES : List (String × String) :=
  [("EUR", "099741"), ("GBP", "096742"), ("JPY", "097741"), ("CHF", "092741"),
   ("CAD", "090741"), ("AUD", "232741"), ("NZD", "112741")]

/-- Constant `USD_CODE`. -/
def USD_CODE : String := "098662"

/-- The `NAME_MAP` dict (total function; only the listed keys are ever
looked up). -/
def NAME_MAP (code : String) : String :=
  if code = "EUR" then "EURO FX"
  else if code = "GBP" then "BRITISH POUND"
  else if code = "JPY" then "JAPANESE YEN"
  else if code = "CHF" then "SWISS FRANC"
  else if code = "CAD" then "CANADIAN DOLLAR"
  else if code = "AUD" then "AUSTRALIAN DOLLAR"
  else if code = "NZD" then "NEW ZEALAND DOLLAR"
  else if code = "USD" then "U.S. DOLLAR INDEX"
  else ""

/-- The JSON envelope written to `cot_data.json`. -/
structure Envelope where
  updated_at : String
  error : Option String
  data : List (String × Result)
deriving DecidableEq

/-- The `for code, cftc_code in TFF_CODES.items()` loop of `fetch_cot_data`:
skip instruments with no matched rows, otherwise append the built result;
`none` propagates a crash of `build_result`. -/
def instrFold (tff_rows : List Rec) :
    List (String × String) → List (String × Result) →
      Option (List (String × Result))
  | [], acc => some acc
  | p :: ps, acc =>
    let matched := find_rows tff_rows p.2 (NAME_MAP p.1)
    if matched = [] then instrFold tff_rows ps acc
    else
      match build_result (add_cot_index (process_tff_rows matched)) with
      | none => none
      | some res => instrFold tff_rows ps (acc ++ [(p.1, res)])

/-- Driver `fetch_cot_data`, parameterized by the generation timestamp and by the
record lists the network/archive collaborators produced.  Empty TFF data
short-circuits into the error envelope; otherwise the TFF currencies are
processed, then USD from TFF if matched there, else from the Legacy rows. -/
def fetch_cot_data (now : String) (tff_rows legacy_rows : List Rec) :
    Option Envelope :=
  if tff_rows = [] then
    some { updated_at := now, error := some "Could not fetch TFF data",
           data := [] }
  else
    match instrFold tff_rows TFF_CODES [] with
    | none => none
    | some results =>
      let usd_matched := find_rows tff_rows USD_CODE (NAME_MAP "USD")
      if usd_matched ≠ [] then
        match build_result (add_cot_index (process_tff_rows usd_matched)) with
        | none => none
        | some res =>
          some { updated_at := now, error := none,
                 data := results ++ [("USD", res)] }
      else if legacy_rows ≠ [] then
        let usd2 := find_rows legacy_rows USD_CODE (NAME_MAP "USD")
        if usd2 ≠ [] then
          match build_result (add_cot_index (process_legacy_rows usd2)) with
          | none => none
          | some res =>
            some { updated_at := now, error := none,
                   data := results ++ [("USD", res)] }
        else some { updated_at := now, error := none, data := results }
      else some { updated_at := now, error := none, data := results }

/-- One year of the TFF fetch loop: try the candidate URLs in order, take
the rows of the first successful fetch (`break`), else contribute nothing. -/
def yearRows (cands : List (Option (List Rec))) : List Rec :=
  (cands.findSome? id).getD []

/-- The whole TFF fetch loop over the candidate years: concatenate each
year's contribution. -/
def gatherTff (yearly : List (List (Option (List Rec)))) : List Rec :=
  (yearly.map yearRows).flatten

/-! Derived definitions, contracts and concrete fixtures -/

/-- The matching contract of `find_rows`: ordered probing of the two
market-code column variants, first non-empty exact match wins, name search
only as a fallback, and a record missing both market-code columns is
treated as carrying the empty string and can never satisfy the exact
match. -/
def FindRowsContract (rows : List Rec) (code frag : String) : Prop :=
  (codeMatches rows "CFTC_Contract_Market_Code" code ≠ [] →
    find_rows rows code frag = codeMatches rows "CFTC_Contract_Market_Code" code) ∧
  (codeMatches rows "CFTC_Contract_Market_Code" code = [] →
    codeMatches rows "CFTC_Contract_MarketCode" code ≠ [] →
    find_rows rows code frag = codeMatches rows "CFTC_Contract_MarketCode" code) ∧
  (codeMatches rows "CFTC_Contract_Market_Code" code = [] →
    codeMatches rows "CFTC_Contract_MarketCode" code = [] →
    find_rows rows code frag = nameMatches rows frag) ∧
  (∀ r, getCol r "CFTC_Contract_Market_Code" = none →
    getCol r "CFTC_Contract_MarketCode" = none →
    r ∉ codeMatches rows "CFTC_Contract_Market_Code" code ∧
      r ∉ codeMatches rows "CFTC_Contract_MarketCode" code)

/-- A record used by the C2 witness: matched by name only. -/
def wRec : Rec :=
  [("Market_and_Exchange_Names", "EURO FX - CHICAGO MERCANTILE EXCHANGE"),
   ("CFTC_Contract_Market_Code", "111111")]

/-- Default observation (used only as a `getD` placeholder). -/
def dObs : Obs := ⟨"", 0, 0, 0, 0, 0, 0, 0, 0, 0, 0, 0, 0, 0, 0, 0, 0⟩

/-- Default indexed observation (used only as a `getD` placeholder). -/
def dObsIdx : ObsIdx := ⟨dObs, 0, 0⟩

/-- The `net_noncomm` values of a weekly sequence, as computed before the
index loop. -/
def netsOf (weekly : List Obs) : List Int :=
  weekly.map (fun x => x.net_noncomm)

/-- The normalization range: `max - min`, or 1 when the extrema agree. -/
def rngOf (weekly : List Obs) : Int :=
  if maxOf (netsOf weekly) ≠ minOf (netsOf weekly) then
    maxOf (netsOf weekly) - minOf (netsOf weekly)
  else 1

/-- The rolling-index contract of `add_cot_index`: per-observation formula,
[0, 100] bounds, and zero index for flat and single-entry windows. -/
def CotIndexContract (weekly : List Obs) : Prop :=
  (∀ o ∈ add_cot_index weekly,
    o.cot_index =
      pyRound1 (((o.toObs.net_noncomm - minOf (netsOf weekly) : Int) : Rat) /
        ((rngOf weekly : Int) : Rat) * 100)) ∧
  (∀ o ∈ add_cot_index weekly, 0 ≤ o.cot_index ∧ o.cot_index ≤ 100) ∧
  (maxOf (netsOf weekly) = minOf (netsOf weekly) →
    ∀ o ∈ add_cot_index weekly, o.cot_index = 0) ∧
  (weekly.length = 1 → ∀ o ∈ add_cot_index weekly, o.cot_index = 0)

/-- Record sort key, as a natural number. -/
def rKey (r : Rec) : Nat := toKey (parse_date r)

/-- Descending order by record key. -/
def keyGE (a b : Rec) : Prop := rKey b ≤ rKey a

/-- Concrete records for the C3 instance: dates P1 > P2 > P2 (dup) > P3. -/
def cP1 : Rec :=
  [("Report_Date_as_YYYY-MM-DD", "2024-03-26"), ("Open_Interest_All", "1")]

/-- Second concrete record (first occurrence of the duplicated date). -/
def cP2a : Rec :=
  [("Report_Date_as_YYYY-MM-DD", "2024-03-19"), ("Open_Interest_All", "2")]

/-- Third concrete record (duplicate date, later in pre-sort order). -/
def cP2b : Rec :=
  [("Report_Date_as_YYYY-MM-DD", "2024-03-19"), ("Open_Interest_All", "3")]

/-- Fourth concrete record (oldest date). -/
def cP3 : Rec :=
  [("Report_Date_as_YYYY-MM-DD", "2024-03-12"), ("Open_Interest_All", "4")]

/-- The deduplication contract: every record surviving sort-then-dedup is
the first record of its formatted date in the original order; retained
formatted dates are pairwise distinct; and on the concrete P1 > P2 > P2 > P3
instance the retained records and dates are exactly as the claim states. -/
def DedupContract (rows : List Rec) (r : Rec) : Prop :=
  rows.find? (fun s => fmt s == fmt r) = some r ∧
  (dedupRows (sortRows rows)).Pairwise (fun a b => fmt a ≠ fmt b) ∧
  dedupRows (sortRows [cP1, cP2a, cP2b, cP3]) = [cP1, cP2a, cP3] ∧
  (dedupRows (sortRows [cP1, cP2a, cP2b, cP3])).map fmt =
    ["2024-03-26", "2024-03-19", "2024-03-12"]

/-- The windowing contract: the assembled series never exceeds 52 entries;
with 80 distinct-date records it has exactly 52; and every retained record
is at least as recent as every dropped one. -/
def WindowContract (rows : List Rec) : Prop :=
  (process_tff_rows rows).length ≤ 52 ∧
  (process_legacy_rows rows).length ≤ 52 ∧
  ((rows.map fmt).Nodup → rows.length = 80 →
    (process_tff_rows rows).length = 52 ∧
      (process_legacy_rows rows).length = 52) ∧
  (∀ r ∈ (dedupRows (sortRows rows)).take 52,
    ∀ s ∈ (dedupRows (sortRows rows)).drop 52, rKey s ≤ rKey r)

/-- A well-formed record dated before the sentinel (valid ISO date in
1999). -/
def rGoodC9 : Rec := [("Report_Date_as_YYYY-MM-DD", "1999-12-31")]

/-- A malformed record: its date value parses under neither format. -/
def rBadC9 : Rec := [("Report_Date_as_YYYY-MM-DD", "not-a-date")]

/-- The amended date-handling contract: column preference order, the fixed
sentinel `2000-01-01` for unparsable records, and — provided every
well-formed record is dated strictly after the sentinel, as every report
date from 2000 onwards is — malformed records sort to the oldest positions
(a suffix of the descending order). -/
def DateOrderContract (rows : List Rec) : Prop :=
  (∀ r d, tryKey r "Report_Date_as_YYYY-MM-DD" = some d →
    parse_date r = d) ∧
  (∀ r d, tryKey r "Report_Date_as_YYYY-MM-DD" = none →
    tryKey r "As_of_Date_In_Form_YYMMDD" = some d → parse_date r = d) ∧
  (∀ r, parsedOk r = false → parse_date r = ⟨2000, 1, 1⟩) ∧
  (∃ l1 l2, sortRows rows = l1 ++ l2 ∧ (∀ r ∈ l1, parsedOk r = true) ∧
    ∀ r ∈ l2, parsedOk r = false ∧ parse_date r = ⟨2000, 1, 1⟩)

/-- A well-formed record dated after the sentinel, for the C9 witness. -/
def rW1 : Rec := [("Report_Date_as_YYYY-MM-DD", "2024-03-12")]

/-- Newer of the two C8 synthetic records: primary net +1000. -/
def c8New : Rec :=
  [("Report_Date_as_YYYY-MM-DD", "2024-03-12"),
   ("Lev_Money_Positions_Long_All", "1500"),
   ("Lev_Money_Positions_Short_All", "700"),
   ("Asset_Mgr_Positions_Long_All", "200"),
   ("Asset_Mgr_Positions_Short_All", "0")]

/-- Older of the two C8 synthetic records: primary net +200. -/
def c8Old : Rec :=
  [("Report_Date_as_YYYY-MM-DD", "2024-03-05"),
   ("Lev_Money_Positions_Long_All", "300"),
   ("Lev_Money_Positions_Short_All", "100")]

/-! Supporting lemmas -/

theorem dropWhile_ws_eq_self (l : List Char)
    (h : ∀ c ∈ l, c.isWhitespace = false) :
    l.dropWhile Char.isWhitespace = l := by
  cases l with
  | nil => rfl
  | cons a as =>
    have : Char.isWhitespace a = false := h a (by simp)
    simp [List.dropWhile_cons, this]

theorem stripStr_of_no_ws (s : String)
    (h : ∀ c ∈ s.toList, c.isWhitespace = false) : stripStr s = s := by
  unfold stripStr
  rw [dropWhile_ws_eq_self _ h, dropWhile_ws_eq_self, List.reverse_reverse]
  · cases s; rfl
  · intro c hc
    exact h c (by simpa using hc)

theorem pyFloat_empty : pyFloat "" = none := rfl

theorem pyFloat_of_strip_empty (v : String) (h : stripStr v = "") :
    pyFloat v = none := by
  unfold pyFloat
  rw [h]
  rfl

/-! Claim theorems -/

/-- Claim C5: numeric coercion never raises (the embedding of `safe_int` is
a total function); an absent column, a blank value, or an unparsable value
yields 0, and a parsable decimal string is parsed via floating point
(modelled exactly over `ℚ`) and then truncated toward zero. -/
theorem safe_int_spec (row : Rec) (key : String) :
    (getCol row key = none → safe_int row key = 0) ∧
    (getCol row key = some "" → safe_int row key = 0) ∧
    (∀ v, getCol row key = some v → stripStr v = "" → safe_int row key = 0) ∧
    (∀ v, getCol row key = some v → pyFloat v = none → safe_int row key = 0) ∧
    (∀ v q, getCol row key = some v → pyFloat v = some q →
      safe_int row key = pyTrunc q) := by
  refine ⟨fun h => by simp [safe_int, h], fun h => by simp [safe_int, h],
    fun v hv hstrip => ?_, fun v hv hf => ?_, fun v q hv hf => ?_⟩
  · by_cases hv0 : v = ""
    · simp [safe_int, hv, hv0]
    · simp [safe_int, hv, hv0, pyFloat_of_strip_empty v hstrip]
  · by_cases hv0 : v = ""
    · simp [safe_int, hv, hv0]
    · simp [safe_int, hv, hv0, hf]
  · have hv0 : v ≠ "" := by
      rintro rfl
      rw [pyFloat_empty] at hf
      exact Option.noConfusion hf
    simp [safe_int, hv, hv0, hf]

/-- Claim C2: instrument matching probes the market-code column variants in
order, stops at the first variant with at least one exact match, falls back
to the case-insensitive name substring match only when both variants match
nothing, and a record missing the market-code column never raises: it is
treated as the empty string, fails the exact match (the configured codes
are non-empty), and is left to the name fallback. -/
theorem find_rows_spec (rows : List Rec) (code frag : String)
    (hc : code ≠ "") : FindRowsContract rows code frag := by
  refine ⟨fun h1 => by simp [find_rows, h1], fun h1 h2 => by simp [find_rows, h1, h2],
    fun h1 h2 => by simp [find_rows, h1, h2], fun r k1 k2 => ?_⟩
  have hs : ∀ col, getCol r col = none →
      r ∉ codeMatches rows col code := by
    intro col hcol hmem
    have := (List.mem_filter.mp hmem).2
    rw [getStr, hcol] at this
    have : stripStr "" = code := by simpa using this
    exact hc (by simpa [stripStr] using this.symm)
  exact ⟨hs _ k1, hs _ k2⟩

/-- Witness for C2 at a concrete input: the configured EUR code is
non-empty, and the contract holds for a one-record list that only the name
fallback matches. -/
theorem find_rows_spec_witness :
    ("099741" : String) ≠ "" ∧ FindRowsContract [wRec] "099741" "EURO FX" :=
  ⟨by decide, find_rows_spec [wRec] "099741" "EURO FX" (by decide)⟩

theorem yearRows_eq_nil (cands : List (Option (List Rec)))
    (h : ∀ c ∈ cands, c = none ∨ c = some []) : yearRows cands = [] := by
  induction cands with
  | nil => rfl
  | cons c cs ih =>
    rcases h c (by simp) with hc | hc
    · rw [yearRows, List.findSome?_cons]
      simp only [hc, id]
      exact ih fun x hx => h x (by simp [hx])
    · rw [yearRows, List.findSome?_cons]
      simp [hc]

theorem gatherTff_eq_nil (yearly : List (List (Option (List Rec))))
    (h : ∀ ys ∈ yearly, ∀ c ∈ ys, c = none ∨ c = some []) :
    gatherTff yearly = [] := by
  rw [gatherTff, List.flatten_eq_nil_iff]
  intro l hl
  rcases List.mem_map.mp hl with ⟨ys, hys, rfl⟩
  exact yearRows_eq_nil ys (h ys hys)

/-- Claim C7: when every candidate source of the TFF fetch loop yields zero
records (fetch failure or empty parse), the run terminates early with the
error envelope: `error` is set to the message and `data` is the empty
mapping, with no instrument keys and no partial data. -/
theorem fetch_total_failure_spec (yearly : List (List (Option (List Rec))))
    (legacy_rows : List Rec) (now : String)
    (h : ∀ ys ∈ yearly, ∀ c ∈ ys, c = none ∨ c = some []) :
    fetch_cot_data now (gatherTff yearly) legacy_rows =
      some { updated_at := now, error := some "Could not fetch TFF data",
             data := [] } := by
  rw [gatherTff_eq_nil yearly h]
  rfl

/-- Witness for C7 at a concrete input: two candidate years, all candidates
failed or empty. -/
theorem fetch_total_failure_spec_witness :
    (∀ ys ∈ ([[none, some []], [none, none]] :
        List (List (Option (List Rec)))), ∀ c ∈ ys, c = none ∨ c = some []) ∧
    fetch_cot_data "2026-10-12 00:00 UTC"
        (gatherTff [[none, some []], [none, none]]) [] =
      some { updated_at := "2026-10-12 00:00 UTC",
             error := some "Could not fetch TFF data", data := [] } :=
  ⟨by decide, fetch_total_failure_spec [[none, some []], [none, none]] []
    "2026-10-12 00:00 UTC" (by decide)⟩

/-! Extrema and rounding lemmas -/

theorem foldl_max_le_init (l : List Int) (a : Int) : a ≤ l.foldl max a := by
  induction l generalizing a with
  | nil => exact le_refl a
  | cons x xs ih => exact le_trans (le_max_left a x) (ih (max a x))

theorem le_foldl_max (l : List Int) (a x : Int) (h : x ∈ l) :
    x ≤ l.foldl max a := by
  induction l generalizing a with
  | nil => cases h
  | cons y ys ih =>
    rcases List.mem_cons.mp h with rfl | h2
    · exact le_trans (le_max_right a x) (foldl_max_le_init ys _)
    · exact ih _ h2

theorem le_maxOf (l : List Int) (x : Int) (h : x ∈ l) : x ≤ maxOf l := by
  cases l with
  | nil => cases h
  | cons y ys =>
    rcases List.mem_cons.mp h with rfl | h2
    · exact foldl_max_le_init ys x
    · exact le_foldl_max ys y x h2

theorem init_le_foldl_min (l : List Int) (a : Int) : l.foldl min a ≤ a := by
  induction l generalizing a with
  | nil => exact le_refl a
  | cons x xs ih => exact le_trans (ih (min a x)) (min_le_left a x)

theorem foldl_min_le (l : List Int) (a x : Int) (h : x ∈ l) :
    l.foldl min a ≤ x := by
  induction l generalizing a with
  | nil => cases h
  | cons y ys ih =>
    rcases List.mem_cons.mp h with rfl | h2
    · exact le_trans (init_le_foldl_min ys _) (min_le_right a x)
    · exact ih _ h2

theorem minOf_le (l : List Int) (x : Int) (h : x ∈ l) : minOf l ≤ x := by
  cases l with
  | nil => cases h
  | cons y ys =>
    rcases List.mem_cons.mp h with rfl | h2
    · exact init_le_foldl_min ys x
    · exact foldl_min_le ys y x h2

theorem le_rhe (q : Rat) (a : Int) (h : (a : Rat) ≤ q) : a ≤ rhe q := by
  have hfa : a ≤ ⌊q⌋ := Int.le_floor.mpr h
  unfold rhe
  split_ifs <;> omega

theorem rhe_le (q : Rat) (b : Int) (h : q ≤ (b : Rat)) : rhe q ≤ b := by
  have hfb : ⌊q⌋ ≤ b := by
    have := Int.floor_le_floor h
    simpa using this
  have hq : (⌊q⌋ : Rat) ≤ q := Int.floor_le q
  have hstep : ¬(q - (⌊q⌋ : Rat) < 1 / 2) → ⌊q⌋ + 1 ≤ b := by
    intro h1
    rcases lt_or_eq_of_le hfb with hlt | heq
    · omega
    · exfalso
      have hcast : (⌊q⌋ : Rat) = (b : Rat) := by exact_mod_cast heq
      rw [hcast] at h1
      have : (1 : Rat) / 2 ≤ q - b := le_of_not_lt h1
      linarith
  unfold rhe
  split_ifs with h1 h2 h3
  · exact hfb
  · exact hstep h1
  · exact hfb
  · exact hstep h1

theorem pyRound1_bounds (q : Rat) (a b : Int) (h1 : (a : Rat) ≤ q)
    (h2 : q ≤ (b : Rat)) :
    (a : Rat) ≤ pyRound1 q ∧ pyRound1 q ≤ (b : Rat) := by
  have hl : (10 * a : Int) ≤ rhe (q * 10) := by
    apply le_rhe
    push_cast
    linarith
  have hr : rhe (q * 10) ≤ (10 * b : Int) := by
    apply rhe_le
    push_cast
    linarith
  constructor
  · rw [pyRound1, le_div_iff₀ (by norm_num : (0 : Rat) < 10)]
    have : ((10 * a : Int) : Rat) ≤ ((rhe (q * 10) : Int) : Rat) := by
      exact_mod_cast hl
    push_cast at this ⊢
    linarith
  · rw [pyRound1, div_le_iff₀ (by norm_num : (0 : Rat) < 10)]
    have : ((rhe (q * 10) : Int) : Rat) ≤ ((10 * b : Int) : Rat) := by
      exact_mod_cast hr
    push_cast at this ⊢
    linarith

theorem pyRound1_zero : pyRound1 0 = 0 := by
  have h0 : rhe 0 = 0 := by
    unfold rhe
    norm_num
  unfold pyRound1
  norm_num [h0]

/-! `add_cot_index` characterization -/

theorem length_addIdxGo (nets : List Int) (mn rg : Int) (len : Nat) :
    ∀ (l : List Obs) (i : Nat), (addIdxGo nets mn rg len i l).length = l.length := by
  intro l
  induction l with
  | nil => intro i; rfl
  | cons w ws ih =>
    intro i
    simpa [addIdxGo] using ih (i + 1)

theorem addIdxGo_mem (nets : List Int) (mn rg : Int) (len : Nat) :
    ∀ (l : List Obs) (i : Nat), ∀ o ∈ addIdxGo nets mn rg len i l,
      ∃ x ∈ l, o.toObs = x ∧
        o.cot_index =
          pyRound1 (((x.net_noncomm - mn : Int) : Rat) / (rg : Rat) * 100) := by
  intro l
  induction l with
  | nil => intro i o ho; cases ho
  | cons w ws ih =>
    intro i o ho
    rcases List.mem_cons.mp ho with rfl | h2
    · exact ⟨w, by simp, rfl, rfl⟩
    · rcases ih (i + 1) o h2 with ⟨x, hx, h3, h4⟩
      exact ⟨x, by simp [hx], h3, h4⟩

theorem addIdxGo_wow (nets : List Int) (mn rg : Int) (len : Nat) :
    ∀ (l : List Obs) (i0 j : Nat), j < l.length →
      ((addIdxGo nets mn rg len i0 l).getD j dObsIdx).wow_change =
        if i0 + j < len - 1 then
          (l.getD j dObs).net_noncomm - nets.getD (i0 + j + 1) 0
        else 0 := by
  intro l
  induction l with
  | nil => intro i0 j h; cases h
  | cons w ws ih =>
    intro i0 j h
    cases j with
    | zero => simp [addIdxGo]
    | succ jj =>
      have hj : jj < ws.length := by simpa using h
      have := ih (i0 + 1) jj hj
      simp only [addIdxGo, List.getD_cons_succ]
      rw [this]
      have harith : i0 + 1 + jj = i0 + (jj + 1) := by omega
      rw [harith]

theorem add_cot_index_cons (w : Obs) (ws : List Obs) :
    add_cot_index (w :: ws) =
      addIdxGo (netsOf (w :: ws)) (minOf (netsOf (w :: ws)))
        (rngOf (w :: ws)) (w :: ws).length 0 (w :: ws) := rfl

theorem flat_cot_index (weekly : List Obs)
    (hflat : maxOf (netsOf weekly) = minOf (netsOf weekly)) :
    ∀ o ∈ add_cot_index weekly, o.cot_index = 0 := by
  cases weekly with
  | nil => intro o ho; cases ho
  | cons w ws =>
    intro o ho
    rw [add_cot_index_cons] at ho
    rcases addIdxGo_mem _ _ _ _ _ _ o ho with ⟨x, hx, _, h4⟩
    have hmem : x.net_noncomm ∈ netsOf (w :: ws) :=
      List.mem_map.mpr ⟨x, hx, rfl⟩
    have h5 : minOf (netsOf (w :: ws)) ≤ x.net_noncomm := minOf_le _ _ hmem
    have h6 : x.net_noncomm ≤ maxOf (netsOf (w :: ws)) := le_maxOf _ _ hmem
    have hx0 : x.net_noncomm - minOf (netsOf (w :: ws)) = 0 := by omega
    rw [h4, hx0]
    norm_num [pyRound1_zero]

/-- Claim C1: for a non-empty weekly sequence every observation's rolling
index equals `(primary_net - window_min) / range * 100` rounded to one
decimal place, with `range = window_max - window_min` or 1 when the extrema
agree; every index lies in [0, 100], and a flat series or single-entry
window yields index 0. -/
theorem cot_index_spec (weekly : List Obs) (h : weekly ≠ []) :
    CotIndexContract weekly := by
  obtain ⟨w, ws, rfl⟩ := List.exists_cons_of_ne_nil h
  have hform : ∀ o ∈ add_cot_index (w :: ws),
      o.cot_index =
        pyRound1 (((o.toObs.net_noncomm - minOf (netsOf (w :: ws)) : Int) : Rat) /
          ((rngOf (w :: ws) : Int) : Rat) * 100) := by
    intro o ho
    rw [add_cot_index_cons] at ho
    rcases addIdxGo_mem _ _ _ _ _ _ o ho with ⟨x, _, h3, h4⟩
    rw [h4, h3]
  refine ⟨hform, ?_, flat_cot_index _, ?_⟩
  · intro o ho
    by_cases hflat : maxOf (netsOf (w :: ws)) = minOf (netsOf (w :: ws))
    · rw [flat_cot_index _ hflat o ho]
      norm_num
    · rw [add_cot_index_cons] at ho
      rcases addIdxGo_mem _ _ _ _ _ _ o ho with ⟨x, hx, _, h4⟩
      have hmem : x.net_noncomm ∈ netsOf (w :: ws) :=
        List.mem_map.mpr ⟨x, hx, rfl⟩
      have h5 : minOf (netsOf (w :: ws)) ≤ x.net_noncomm := minOf_le _ _ hmem
      have h6 : x.net_noncomm ≤ maxOf (netsOf (w :: ws)) := le_maxOf _ _ hmem
      have hrg : rngOf (w :: ws) =
          maxOf (netsOf (w :: ws)) - minOf (netsOf (w :: ws)) := by
        rw [rngOf, if_pos hflat]
      have hrgpos : (0 : Int) < rngOf (w :: ws) := by
        rw [hrg]
        omega
      set a : Int := x.net_noncomm - minOf (netsOf (w :: ws)) with ha
      have ha0 : (0 : Int) ≤ a := by omega
      have har : a ≤ rngOf (w :: ws) := by
        rw [hrg]
        omega
      have hq0 : (0 : Rat) ≤
          ((a : Int) : Rat) / ((rngOf (w :: ws) : Int) : Rat) * 100 := by
        apply mul_nonneg _ (by norm_num)
        apply div_nonneg
        · exact_mod_cast ha0
        · exact_mod_cast le_of_lt hrgpos
      have hq100 :
          ((a : Int) : Rat) / ((rngOf (w :: ws) : Int) : Rat) * 100 ≤ 100 := by
        have hdiv : ((a : Int) : Rat) / ((rngOf (w :: ws) : Int) : Rat) ≤ 1 := by
          rw [div_le_one (by exact_mod_cast hrgpos)]
          exact_mod_cast har
        have h100 :=
          mul_le_mul_of_nonneg_right hdiv (by norm_num : (0 : Rat) ≤ 100)
        rw [one_mul] at h100
        exact h100
      have hb := pyRound1_bounds
        (((a : Int) : Rat) / ((rngOf (w :: ws) : Int) : Rat) * 100) 0 100
        (by exact_mod_cast hq0) (by exact_mod_cast hq100)
      rw [h4]
      exact ⟨by exact_mod_cast hb.1, by exact_mod_cast hb.2⟩
  · intro hlen
    have h0 : ws.length = 0 := by simpa using hlen
    have hws : ws = [] := List.length_eq_zero.mp h0
    subst hws
    apply flat_cot_index
    rfl

/-- Witness for C1 at a concrete input: the singleton window. -/
theorem cot_index_spec_witness :
    ([dObs] : List Obs) ≠ [] ∧ CotIndexContract [dObs] :=
  ⟨by simp, cot_index_spec [dObs] (by simp)⟩

/-- Claim C6: `add_cot_index` preserves length and assigns every
observation at position `i < L - 1` the delta
`net_noncomm[i] - net_noncomm[i+1]`, while the oldest retained observation
gets delta 0. -/
theorem wow_change_spec (weekly : List Obs) :
    (add_cot_index weekly).length = weekly.length ∧
    (∀ i, i < weekly.length - 1 →
      ((add_cot_index weekly).getD i dObsIdx).wow_change =
        (weekly.getD i dObs).net_noncomm -
          (weekly.getD (i + 1) dObs).net_noncomm) ∧
    (∀ i, i + 1 = weekly.length →
      ((add_cot_index weekly).getD i dObsIdx).wow_change = 0) := by
  cases weekly with
  | nil =>
    refine ⟨rfl, fun i hi => by simp at hi, fun i hi => by simp at hi⟩
  | cons w ws =>
    refine ⟨by rw [add_cot_index_cons]; exact length_addIdxGo _ _ _ _ _ _,
      fun i hi => ?_, fun i hi => ?_⟩
    · have hi2 : i < (w :: ws).length := by
        have := (w :: ws).length
        omega
      rw [add_cot_index_cons, addIdxGo_wow _ _ _ _ _ _ _ hi2]
      have hcond : 0 + i < (w :: ws).length - 1 := by omega
      rw [if_pos hcond]
      have hi3 : i + 1 < (w :: ws).length := by omega
      have hnets : (netsOf (w :: ws)).getD (0 + i + 1) 0 =
          ((w :: ws).getD (i + 1) dObs).net_noncomm := by
        have h1 : (netsOf (w :: ws)).getD (0 + i + 1) 0 =
            (netsOf (w :: ws)).getD (i + 1) 0 := by
          have : 0 + i + 1 = i + 1 := by omega
          rw [this]
        rw [h1, List.getD_eq_getElem _ _ (by simpa [netsOf] using hi3),
          List.getD_eq_getElem _ _ hi3]
        simp [netsOf]
      rw [hnets]
    · have hi2 : i < (w :: ws).length := by omega
      rw [add_cot_index_cons, addIdxGo_wow _ _ _ _ _ _ _ hi2]
      have hcond : ¬(0 + i < (w :: ws).length - 1) := by omega
      rw [if_neg hcond]

/-! Date validity, comparison and formatting lemmas -/

theorem digit_toNat (c : Char) (h : c.isDigit = true) :
    48 ≤ c.toNat ∧ c.toNat ≤ 57 := by
  simp [Char.isDigit] at h
  obtain ⟨h1, h2⟩ := h
  exact ⟨UInt32.le_toNat_of_le (by norm_num) h1,
    UInt32.toNat_le_of_le (by norm_num) h2⟩

theorem digVal_le (c : Char) (h : c.isDigit = true) : digVal c ≤ 9 := by
  have := digit_toNat c h
  unfold digVal
  omega

theorem num4_bound (l : List Char) (y : Nat) (h : num4 l = some y) :
    y ≤ 9999 := by
  unfold num4 at h
  split at h
  · rename_i a b c d
    split at h
    · rename_i hd
      simp only [Bool.and_eq_true] at hd
      obtain ⟨⟨⟨ha, hb⟩, hc⟩, hdd⟩ := hd
      have := digVal_le a ha
      have := digVal_le b hb
      have := digVal_le c hc
      have := digVal_le d hdd
      injection h with h
      omega
    · cases h
  · cases h

theorem num2_bound (l : List Char) (y : Nat) (h : num2 l = some y) :
    y ≤ 99 := by
  unfold num2 at h
  split at h
  · rename_i a b
    split at h
    · rename_i hd
      simp only [Bool.and_eq_true] at hd
      obtain ⟨ha, hb⟩ := hd
      have := digVal_le a ha
      have := digVal_le b hb
      injection h with h
      omega
    · cases h
  · cases h

theorem daysInMonth_le (y m : Nat) : daysInMonth y m ≤ 31 := by
  unfold daysInMonth
  split_ifs <;> simp

theorem parseISO_valid (s : String) (d : Date) (h : parseISO s = some d) :
    ValidDate d := by
  unfold parseISO at h
  split at h
  · rename_i ys ms ds heq
    split at h
    · rename_i y m dd hy hm hd
      split at h
      · rename_i hcond
        injection h with h
        subst h
        obtain ⟨c1, c2, c3, c4, c5⟩ := hcond
        have hy4 := num4_bound ys y hy
        have hdm := daysInMonth_le y m
        exact ⟨c1, hy4, c2, c3, c4, le_trans c5 hdm⟩
      · cases h
    · cases h
  · cases h

theorem parseYYMMDD_valid (s : String) (d : Date)
    (h : parseYYMMDD s = some d) : ValidDate d := by
  unfold parseYYMMDD at h
  split at h
  · rename_i a b c d2 e f heq
    split at h
    · rename_i yy m dd hyy hm hdd
      have hyy99 := num2_bound [a, b] yy hyy
      rcases le_or_lt yy 68 with hc | hc
      · simp only [if_pos hc] at h
        split at h
        · rename_i hcond
          injection h with h
          subst h
          obtain ⟨c1, c2, c3, c4⟩ := hcond
          exact ⟨show 1 ≤ 2000 + yy by omega, show 2000 + yy ≤ 9999 by omega,
            c1, c2, c3, le_trans c4 (daysInMonth_le _ m)⟩
        · cases h
      · have hc2 : ¬yy ≤ 68 := by omega
        simp only [if_neg hc2] at h
        split at h
        · rename_i hcond
          injection h with h
          subst h
          obtain ⟨c1, c2, c3, c4⟩ := hcond
          exact ⟨show 1 ≤ 1900 + yy by omega, show 1900 + yy ≤ 9999 by omega,
            c1, c2, c3, le_trans c4 (daysInMonth_le _ m)⟩
        · cases h
    · cases h
  · cases h

theorem tryKey_valid (r : Rec) (k : String) (d : Date)
    (h : tryKey r k = some d) : ValidDate d := by
  simp only [tryKey] at h
  split at h
  · cases h
  · split at h
    · exact parseISO_valid _ _ h
    · split at h
      · exact parseYYMMDD_valid _ _ h
      · cases h

theorem parse_date_valid (r : Rec) : ValidDate (parse_date r) := by
  unfold parse_date
  split
  · rename_i d hd
    exact tryKey_valid _ _ _ hd
  · split
    · rename_i d hd
      exact tryKey_valid _ _ _ hd
    · exact ⟨by decide, by decide, by decide, by decide, by decide, by decide⟩

theorem dateLt_iff_key (a b : Date) (ha : ValidDate a) (hb : ValidDate b) :
    dateLt a b = true ↔ toKey a < toKey b := by
  obtain ⟨a1, a2, a3, a4, a5, a6⟩ := ha
  obtain ⟨b1, b2, b3, b4, b5, b6⟩ := hb
  simp only [dateLt, toKey, Bool.or_eq_true, Bool.and_eq_true,
    decide_eq_true_eq, beq_iff_eq]
  omega

theorem dateLt_parse_iff (r s : Rec) :
    dateLt (parse_date r) (parse_date s) = true ↔ rKey r < rKey s :=
  dateLt_iff_key _ _ (parse_date_valid r) (parse_date_valid s)

theorem toKey_inj (a b : Date) (ha : ValidDate a) (hb : ValidDate b)
    (h : toKey a = toKey b) : a = b := by
  obtain ⟨a1, a2, a3, a4, a5, a6⟩ := ha
  obtain ⟨b1, b2, b3, b4, b5, b6⟩ := hb
  cases a with
  | mk ay am ad =>
    cases b with
    | mk by2 bm bd =>
      simp only [toKey] at h
      simp only [Date.mk.injEq]
      simp only at a1 a2 a3 a4 a5 a6 b1 b2 b3 b4 b5 b6
      refine ⟨?_, ?_, ?_⟩ <;> omega

theorem digitChar_inj (x y : Nat) (hx : x ≤ 9) (hy : y ≤ 9)
    (h : Nat.digitChar x = Nat.digitChar y) : x = y := by
  interval_cases x <;> interval_cases y <;> simp_all [Nat.digitChar]

theorem fmtDate_inj (a b : Date) (ha : ValidDate a) (hb : ValidDate b)
    (h : fmtDate a = fmtDate b) : a = b := by
  obtain ⟨ay, am, ad⟩ := a
  obtain ⟨by2, bm, bd⟩ := b
  obtain ⟨a1, a2, a3, a4, a5, a6⟩ := ha
  obtain ⟨b1, b2, b3, b4, b5, b6⟩ := hb
  rw [String.ext_iff] at h
  simp only [fmtDate, List.cons.injEq, eq_self_iff_true, true_and,
    and_true] at h
  obtain ⟨e1, e2, e3, e4, e5, e6, e7, e8⟩ := h
  simp only at a1 a2 a3 a4 a5 a6 b1 b2 b3 b4 b5 b6 e1 e2 e3 e4 e5 e6 e7 e8
  have d1 := digitChar_inj _ _ (by omega) (by omega) e1
  have d2 := digitChar_inj _ _ (by omega) (by omega) e2
  have d3 := digitChar_inj _ _ (by omega) (by omega) e3
  have d4 := digitChar_inj _ _ (by omega) (by omega) e4
  have d5 := digitChar_inj _ _ (by omega) (by omega) e5
  have d6 := digitChar_inj _ _ (by omega) (by omega) e6
  have d7 := digitChar_inj _ _ (by omega) (by omega) e7
  have d8 := digitChar_inj _ _ (by omega) (by omega) e8
  simp only [Date.mk.injEq]
  refine ⟨?_, ?_, ?_⟩ <;> omega

theorem fmt_eq_iff (r s : Rec) :
    fmt r = fmt s ↔ parse_date r = parse_date s := by
  constructor
  · exact fun h =>
      fmtDate_inj _ _ (parse_date_valid r) (parse_date_valid s) h
  · exact fun h => by rw [fmt, fmt, h]

theorem rKey_eq_iff (r s : Rec) :
    rKey r = rKey s ↔ parse_date r = parse_date s := by
  constructor
  · exact fun h => toKey_inj _ _ (parse_date_valid r) (parse_date_valid s) h
  · exact fun h => by rw [rKey, rKey, h]

/-! Sorting lemmas -/

theorem mem_insertDesc (r : Rec) (l : List Rec) (a : Rec) :
    a ∈ insertDesc r l ↔ a = r ∨ a ∈ l := by
  induction l with
  | nil => simp [insertDesc]
  | cons x xs ih =>
    unfold insertDesc
    split
    · simp only [List.mem_cons, ih]
      tauto
    · simp only [List.mem_cons]

theorem length_insertDesc (r : Rec) (l : List Rec) :
    (insertDesc r l).length = l.length + 1 := by
  induction l with
  | nil => rfl
  | cons x xs ih =>
    unfold insertDesc
    split
    · simp [ih]
    · simp

theorem sortRows_cons (r : Rec) (rs : List Rec) :
    sortRows (r :: rs) = insertDesc r (sortRows rs) := rfl

theorem length_sortRows (rows : List Rec) :
    (sortRows rows).length = rows.length := by
  induction rows with
  | nil => rfl
  | cons r rs ih =>
    rw [sortRows_cons, length_insertDesc, ih, List.length_cons]

theorem perm_insertDesc (r : Rec) (l : List Rec) :
    List.Perm (insertDesc r l) (r :: l) := by
  induction l with
  | nil => rfl
  | cons x xs ih =>
    unfold insertDesc
    split
    · exact (List.Perm.cons x ih).trans (List.Perm.swap r x xs)
    · rfl

theorem sortRows_perm (rows : List Rec) : List.Perm (sortRows rows) rows := by
  induction rows with
  | nil => rfl
  | cons r rs ih =>
    rw [sortRows_cons]
    exact (perm_insertDesc r (sortRows rs)).trans (List.Perm.cons r ih)

theorem mem_sortRows (rows : List Rec) (a : Rec) :
    a ∈ sortRows rows ↔ a ∈ rows :=
  (sortRows_perm rows).mem_iff

theorem pairwise_insertDesc (r : Rec) (l : List Rec)
    (h : l.Pairwise keyGE) : (insertDesc r l).Pairwise keyGE := by
  induction l with
  | nil => simp [insertDesc, List.pairwise_cons]
  | cons x xs ih =>
    rw [List.pairwise_cons] at h
    obtain ⟨hx, hxs⟩ := h
    unfold insertDesc
    split
    · rename_i hlt
      rw [List.pairwise_cons]
      refine ⟨fun b hb => ?_, ih hxs⟩
      rcases (mem_insertDesc r xs b).mp hb with rfl | hbx
      · exact le_of_lt ((dateLt_parse_iff b x).mp hlt)
      · exact hx b hbx
    · rename_i hnlt
      have hxr : rKey x ≤ rKey r := by
        by_contra hcon
        exact hnlt ((dateLt_parse_iff r x).mpr (by omega))
      rw [List.pairwise_cons]
      refine ⟨fun b hb => ?_, List.pairwise_cons.mpr ⟨hx, hxs⟩⟩
      rcases List.mem_cons.mp hb with rfl | hbx
      · exact hxr
      · exact le_trans (hx b hbx) hxr

theorem pairwise_sortRows (rows : List Rec) :
    (sortRows rows).Pairwise keyGE := by
  induction rows with
  | nil => simp [sortRows]
  | cons r rs ih =>
    rw [sortRows_cons]
    exact pairwise_insertDesc r (sortRows rs) ih

/-! Stability of the sort with respect to first occurrences -/

theorem find?_insertDesc_of_eq (r : Rec) (l : List Rec) (k : Nat)
    (h : rKey r = k) :
    (insertDesc r l).find? (fun s => rKey s == k) = some r := by
  induction l with
  | nil => simp [insertDesc, List.find?, h]
  | cons x xs ih =>
    unfold insertDesc
    split
    · rename_i hlt
      have hxk : rKey x ≠ k := by
        have := (dateLt_parse_iff r x).mp hlt
        omega
      rw [List.find?_cons_of_neg _ (by simp [hxk])]
      exact ih
    · exact List.find?_cons_of_pos _ (by simp [h])

theorem find?_insertDesc_of_ne (r : Rec) (l : List Rec) (k : Nat)
    (h : rKey r ≠ k) :
    (insertDesc r l).find? (fun s => rKey s == k) =
      l.find? (fun s => rKey s == k) := by
  induction l with
  | nil =>
    show ([r].find? fun s => rKey s == k) = [].find? fun s => rKey s == k
    rw [List.find?_cons_of_neg _ (by simp [h])]
  | cons x xs ih =>
    unfold insertDesc
    split
    · by_cases hx : rKey x = k
      · rw [List.find?_cons_of_pos _ (by simp [hx]),
          List.find?_cons_of_pos _ (by simp [hx])]
      · rw [List.find?_cons_of_neg _ (by simp [hx]),
          List.find?_cons_of_neg _ (by simp [hx])]
        exact ih
    · rw [List.find?_cons_of_neg _ (by simp [h])]

theorem find?_sortRows (rows : List Rec) (k : Nat) :
    (sortRows rows).find? (fun s => rKey s == k) =
      rows.find? (fun s => rKey s == k) := by
  induction rows with
  | nil => rfl
  | cons r rs ih =>
    rw [sortRows_cons]
    by_cases h : rKey r = k
    · rw [find?_insertDesc_of_eq r _ k h, List.find?_cons_of_pos _ (by simp [h])]
    · rw [find?_insertDesc_of_ne r _ k h, ih,
        List.find?_cons_of_neg _ (by simp [h])]

/-! Deduplication lemmas -/

theorem dedupGo_keep_first (l : List Rec) :
    ∀ (seen : List String), ∀ r ∈ dedupGo seen l,
      fmt r ∉ seen ∧ l.find? (fun s => fmt s == fmt r) = some r := by
  induction l with
  | nil => intro seen r hr; cases hr
  | cons x xs ih =>
    intro seen r hr
    unfold dedupGo at hr
    split at hr
    · rename_i hseen
      obtain ⟨h1, h2⟩ := ih seen r hr
      have hne : fmt x ≠ fmt r := fun he => h1 (he ▸ hseen)
      exact ⟨h1, by rw [List.find?_cons_of_neg _ (by simp [hne])]; exact h2⟩
    · rename_i hseen
      rcases List.mem_cons.mp hr with rfl | hr2
      · exact ⟨hseen, List.find?_cons_of_pos _ (by simp)⟩
      · obtain ⟨h1, h2⟩ := ih (fmt x :: seen) r hr2
        rw [List.mem_cons] at h1
        push_neg at h1
        obtain ⟨h1a, h1b⟩ := h1
        refine ⟨h1b, ?_⟩
        have hne : fmt x ≠ fmt r := fun he => h1a he.symm
        rw [List.find?_cons_of_neg _ (by simp [hne])]
        exact h2

theorem dedupGo_pairwise_ne (l : List Rec) :
    ∀ seen : List String,
      (dedupGo seen l).Pairwise (fun a b => fmt a ≠ fmt b) := by
  induction l with
  | nil => intro seen; simp [dedupGo]
  | cons x xs ih =>
    intro seen
    unfold dedupGo
    split
    · exact ih seen
    · rw [List.pairwise_cons]
      refine ⟨fun b hb => ?_, ih (fmt x :: seen)⟩
      have := (dedupGo_keep_first xs (fmt x :: seen) b hb).1
      rw [List.mem_cons] at this
      push_neg at this
      exact fun he => this.1 he.symm

theorem dedupGo_sublist (l : List Rec) :
    ∀ seen : List String, List.Sublist (dedupGo seen l) l := by
  induction l with
  | nil => intro seen; simp [dedupGo]
  | cons x xs ih =>
    intro seen
    unfold dedupGo
    split
    · exact (ih seen).cons x
    · exact (ih (fmt x :: seen)).cons₂ x

theorem dedupGo_of_nodup (l : List Rec) :
    ∀ seen : List String, (l.map fmt).Nodup →
      (∀ x ∈ l, fmt x ∉ seen) → dedupGo seen l = l := by
  induction l with
  | nil => intro seen _ _; rfl
  | cons x xs ih =>
    intro seen hnd hseen
    rw [List.map_cons, List.nodup_cons] at hnd
    obtain ⟨hx, hnd2⟩ := hnd
    unfold dedupGo
    rw [if_neg (hseen x (by simp))]
    congr 1
    apply ih (fmt x :: seen) hnd2
    intro y hy
    rw [List.mem_cons]
    push_neg
    exact ⟨fun he => hx (he ▸ List.mem_map.mpr ⟨y, hy, rfl⟩), hseen y (by simp [hy])⟩

theorem fmt_pred_eq (r : Rec) :
    (fun s => fmt s == fmt r) = (fun s => rKey s == rKey r) := by
  funext s
  by_cases h : parse_date s = parse_date r
  · simp [(fmt_eq_iff s r).mpr h, (rKey_eq_iff s r).mpr h]
  · have h1 : fmt s ≠ fmt r := fun he => h ((fmt_eq_iff s r).mp he)
    have h2 : rKey s ≠ rKey r := fun he => h ((rKey_eq_iff s r).mp he)
    simp [h1, h2]

/-- Claim C3: after the stable descending sort, deduplication by formatted
date keeps the first occurrence, so ties on an identical formatted date are
broken by the original pre-sort order (the earlier record survives, later
duplicates are dropped silently); for records on periods
P1 > P2 > P2 (dup) > P3 the retained ordered dates are [P1, P2, P3]. -/
theorem dedup_keep_first_spec (rows : List Rec) (r : Rec)
    (hr : r ∈ dedupRows (sortRows rows)) : DedupContract rows r := by
  refine ⟨?_, dedupGo_pairwise_ne _ [], by decide, by decide⟩
  have h2 := (dedupGo_keep_first (sortRows rows) [] r hr).2
  rw [fmt_pred_eq r] at h2 ⊢
  rw [← find?_sortRows rows (rKey r)]
  exact h2

/-- Witness for C3 at the concrete instance. -/
theorem dedup_keep_first_spec_witness :
    cP1 ∈ dedupRows (sortRows [cP1, cP2a, cP2b, cP3]) ∧
    DedupContract [cP1, cP2a, cP2b, cP3] cP1 :=
  ⟨by decide, dedup_keep_first_spec [cP1, cP2a, cP2b, cP3] cP1 (by decide)⟩

/-- Claim C4: after deduplication the retained sequence is truncated to the
52 most recent entries, so every assembled series has length at most 52;
80 distinct-date records yield exactly 52 entries, the 52 most recent. -/
theorem window_spec (rows : List Rec) : WindowContract rows := by
  have hlen : ∀ f : Rec → Obs,
      (((dedupRows (sortRows rows)).take 52).map f).length ≤ 52 := by
    intro f
    rw [List.length_map]
    exact List.length_take_le _ _
  refine ⟨hlen _, hlen _, ?_, ?_⟩
  · intro hnd h80
    have hperm : List.Perm ((sortRows rows).map fmt) (rows.map fmt) :=
      (sortRows_perm rows).map fmt
    have hnd2 : ((sortRows rows).map fmt).Nodup := hperm.nodup_iff.mpr hnd
    have hde : dedupRows (sortRows rows) = sortRows rows :=
      dedupGo_of_nodup _ [] hnd2 (by simp)
    have hlen2 : (dedupRows (sortRows rows)).length = 80 := by
      rw [hde, length_sortRows, h80]
    have htake : ((dedupRows (sortRows rows)).take 52).length = 52 := by
      rw [List.length_take, hlen2]
      norm_num
    constructor
    · rw [process_tff_rows, List.length_map, htake]
    · rw [process_legacy_rows, List.length_map, htake]
  · intro r hr s hs
    have hp : (dedupRows (sortRows rows)).Pairwise keyGE :=
      List.Pairwise.sublist (dedupGo_sublist _ []) (pairwise_sortRows rows)
    rw [← List.take_append_drop 52 (dedupRows (sortRows rows))] at hp
    exact (List.pairwise_append.mp hp).2.2 r hr s hs

/-- Counterexample to C9 as stated: the sentinel `datetime(2000, 1, 1)` is
not minimal, so a malformed record sorts to the NEWEST position (the head
of the descending order), not the oldest, whenever a well-formed record
carries a pre-2000 date. -/
theorem date_sentinel_cex :
    parsedOk rBadC9 = false ∧ parsedOk rGoodC9 = true ∧
    parse_date rBadC9 = ⟨2000, 1, 1⟩ ∧
    parse_date rGoodC9 = ⟨1999, 12, 31⟩ ∧
    sortRows [rGoodC9, rBadC9] = [rBadC9, rGoodC9] := by decide

theorem parse_date_of_not_ok (r : Rec) (h : parsedOk r = false) :
    parse_date r = ⟨2000, 1, 1⟩ := by
  rw [parsedOk, Bool.or_eq_false_iff] at h
  obtain ⟨h1, h2⟩ := h
  have h1' : tryKey r "Report_Date_as_YYYY-MM-DD" = none := by
    cases htk : tryKey r "Report_Date_as_YYYY-MM-DD" with
    | none => rfl
    | some d => rw [htk] at h1; simp at h1
  have h2' : tryKey r "As_of_Date_In_Form_YYMMDD" = none := by
    cases htk : tryKey r "As_of_Date_In_Form_YYMMDD" with
    | none => rfl
    | some d => rw [htk] at h2; simp at h2
  rw [parse_date, h1', h2']

theorem sorted_split (l : List Rec) (hp : l.Pairwise keyGE)
    (hok : ∀ r ∈ l, parsedOk r = true → 20000101 < rKey r)
    (hbad : ∀ r ∈ l, parsedOk r = false → rKey r = 20000101) :
    ∃ l1 l2, l = l1 ++ l2 ∧ (∀ r ∈ l1, parsedOk r = true) ∧
      (∀ r ∈ l2, parsedOk r = false) := by
  induction l with
  | nil => exact ⟨[], [], rfl, by simp, by simp⟩
  | cons x xs ih =>
    rw [List.pairwise_cons] at hp
    obtain ⟨hx, hxs⟩ := hp
    cases hpx : parsedOk x with
    | true =>
      obtain ⟨l1, l2, heq, h1, h2⟩ := ih hxs
        (fun r hr => hok r (by simp [hr])) (fun r hr => hbad r (by simp [hr]))
      refine ⟨x :: l1, l2, by rw [List.cons_append, heq], fun r hr => ?_, h2⟩
      rcases List.mem_cons.mp hr with rfl | hr2
      · exact hpx
      · exact h1 r hr2
    | false =>
      refine ⟨[], x :: xs, rfl, by simp, fun r hr => ?_⟩
      rcases List.mem_cons.mp hr with rfl | hr2
      · exact hpx
      · cases hpr : parsedOk r with
        | false => rfl
        | true =>
          exfalso
          have hkr := hok r (by simp [hr2]) hpr
          have hkx := hbad x (by simp) hpx
          have hge := hx r hr2
          rw [keyGE] at hge
          omega

/-- Claim C9 (amended): date extraction never raises and prefers the ISO
column, then the compact column, else the fixed sentinel `2000-01-01`; and
for collections whose well-formed records are all dated strictly after the
sentinel, the malformed records sort to the oldest positions.  (The
unamended claim, quantifying over every collection, is refuted by
`date_sentinel_cex`.) -/
theorem date_order_spec (rows : List Rec)
    (h : ∀ r ∈ rows, parsedOk r = true → 20000101 < rKey r) :
    DateOrderContract rows := by
  refine ⟨fun r d hd => by rw [parse_date, hd],
    fun r d h1 h2 => by rw [parse_date, h1, h2],
    parse_date_of_not_ok, ?_⟩
  have hok : ∀ r ∈ sortRows rows, parsedOk r = true → 20000101 < rKey r :=
    fun r hr => h r ((mem_sortRows rows r).mp hr)
  have hbad : ∀ r ∈ sortRows rows, parsedOk r = false →
      rKey r = 20000101 := by
    intro r hr hf
    rw [rKey, parse_date_of_not_ok r hf]
    rfl
  obtain ⟨l1, l2, heq, h1, h2⟩ :=
    sorted_split _ (pairwise_sortRows rows) hok hbad
  exact ⟨l1, l2, heq, h1,
    fun r hr => ⟨h2 r hr, parse_date_of_not_ok r (h2 r hr)⟩⟩

/-- Witness for the amended C9 at a concrete input. -/
theorem date_order_spec_witness :
    (∀ r ∈ [rW1, rBadC9], parsedOk r = true → 20000101 < rKey r) ∧
    DateOrderContract [rW1, rBadC9] :=
  ⟨by decide, date_order_spec [rW1, rBadC9] (by decide)⟩

/-! Evaluating `safe_int` on digit strings -/

theorem all_digits_takeWhile (l : List Char) (h : l.all Char.isDigit = true) :
    l.takeWhile Char.isDigit = l := by
  induction l with
  | nil => rfl
  | cons a as ih =>
    rw [List.all_cons, Bool.and_eq_true] at h
    rw [List.takeWhile_cons_of_pos h.1, ih h.2]

theorem all_digits_dropWhile (l : List Char) (h : l.all Char.isDigit = true) :
    l.dropWhile Char.isDigit = [] := by
  induction l with
  | nil => rfl
  | cons a as ih =>
    rw [List.all_cons, Bool.and_eq_true] at h
    rw [List.dropWhile_cons_of_pos h.1, ih h.2]

theorem digit_not_ws (c : Char) (h : c.isDigit = true) :
    c.isWhitespace = false := by
  simp only [Char.isWhitespace, Bool.or_eq_false_iff]
  refine ⟨⟨⟨?_, ?_⟩, ?_⟩, ?_⟩ <;>
    · simp only [decide_eq_false_iff_not]
      rintro rfl
      exact absurd h (by decide)

theorem pyFloat_digits (s : String) (h1 : s.toList ≠ [])
    (h2 : s.toList.all Char.isDigit = true) :
    pyFloat s = some ((digitsVal s.toList : Nat) : Rat) := by
  have hnw : ∀ c ∈ s.toList, c.isWhitespace = false := fun c hc =>
    digit_not_ws c (List.all_eq_true.mp h2 c hc)
  have hstrip : stripStr s = s := stripStr_of_no_ws s hnw
  obtain ⟨c, cs, hcs⟩ := List.exists_cons_of_ne_nil h1
  have hcdig : c.isDigit = true := by
    rw [hcs, List.all_cons, Bool.and_eq_true] at h2
    exact h2.1
  have hcm : c ≠ '-' := by
    rintro rfl
    exact absurd hcdig (by decide)
  have hcp : c ≠ '+' := by
    rintro rfl
    exact absurd hcdig (by decide)
  have hmant : parseMantissa (c :: cs) =
      some (((digitsVal (c :: cs) : Nat) : Rat), []) := by
    unfold parseMantissa
    rw [← hcs, all_digits_takeWhile _ h2, all_digits_dropWhile _ h2, hcs]
    simp
  unfold pyFloat
  rw [hstrip]
  simp only [hcs, if_neg hcm]
  rw [if_neg (show ¬(c = '-' ∨ c = '+') by tauto)]
  simp only [hmant]
  rw [one_mul]

theorem pyTrunc_natCast (n : Nat) : pyTrunc ((n : Nat) : Rat) = (n : Int) := by
  rw [pyTrunc, if_pos (by positivity)]
  exact_mod_cast Int.floor_natCast n

theorem safe_int_digits (row : Rec) (k s : String)
    (hcol : getCol row k = some s) (h1 : s.toList ≠ [])
    (h2 : s.toList.all Char.isDigit = true) :
    safe_int row k = ((digitsVal s.toList : Nat) : Int) := by
  have hs0 : s ≠ "" := fun he => h1 (by rw [he]; rfl)
  simp only [safe_int, hcol, if_neg hs0, pyFloat_digits s h1 h2]
  exact pyTrunc_natCast _

/-! Claim C8: the series summary -/

theorem c8New_net : (toTffObs c8New).net_noncomm = 1000 := by
  have h1 := safe_int_digits c8New "Lev_Money_Positions_Long_All" "1500"
    (by rfl) (by decide) (by decide)
  have h2 := safe_int_digits c8New "Lev_Money_Positions_Short_All" "700"
    (by rfl) (by decide) (by decide)
  have h3 := safe_int_digits c8New "Asset_Mgr_Positions_Long_All" "200"
    (by rfl) (by decide) (by decide)
  have h4 := safe_int_digits c8New "Asset_Mgr_Positions_Short_All" "0"
    (by rfl) (by decide) (by decide)
  simp only [toTffObs, h1, h2, h3, h4]
  decide

theorem c8Old_net : (toTffObs c8Old).net_noncomm = 200 := by
  have h1 := safe_int_digits c8Old "Lev_Money_Positions_Long_All" "300"
    (by rfl) (by decide) (by decide)
  have h2 := safe_int_digits c8Old "Lev_Money_Positions_Short_All" "100"
    (by rfl) (by decide) (by decide)
  have h3 : safe_int c8Old "Asset_Mgr_Positions_Long_All" = 0 := by decide
  have h4 : safe_int c8Old "Asset_Mgr_Positions_Short_All" = 0 := by decide
  simp only [toTffObs, h1, h2, h3, h4]
  decide

theorem c8_win : (dedupRows (sortRows [c8New, c8Old])).take 52 =
    [c8New, c8Old] := by decide

theorem c8_proc : process_tff_rows [c8New, c8Old] =
    [toTffObs c8New, toTffObs c8Old] := by
  rw [process_tff_rows, c8_win]
  rfl

theorem c8_nets : netsOf [toTffObs c8New, toTffObs c8Old] = [1000, 200] := by
  simp [netsOf, c8New_net, c8Old_net]

/-- Claim C8: for a non-empty assembled weekly sequence `build_result` sets
`latest` to the observation at index 0, the 52-week high/low to the window
extrema of the primary net, and `cot_index` to the latest observation's
index; on the two synthetic records with primary nets +1000 (newest) and
+200 (oldest) the summary has latest cot_index 100, high 1000, low 200 and
latest wow_change 800. -/
theorem build_result_spec :
    (∀ (w : ObsIdx) (ws : List ObsIdx),
      build_result (w :: ws) = some
        { weeks := w :: ws, latest := w,
          w52_high := maxOf ((w :: ws).map (fun o => o.toObs.net_noncomm)),
          w52_low := minOf ((w :: ws).map (fun o => o.toObs.net_noncomm)),
          cot_index := w.cot_index }) ∧
    (build_result (add_cot_index (process_tff_rows [c8New, c8Old]))).map
      (fun res => (res.latest.cot_index, res.w52_high, res.w52_low,
        res.latest.wow_change)) = some (100, 1000, 200, 800) := by
  refine ⟨fun w ws => rfl, ?_⟩
  have hmin : minOf (netsOf [toTffObs c8New, toTffObs c8Old]) = 200 := by
    rw [c8_nets]
    decide
  have hrng : rngOf [toTffObs c8New, toTffObs c8Old] = 800 := by
    rw [rngOf, c8_nets]
    decide
  rw [c8_proc, add_cot_index_cons, hmin, hrng, c8_nets]
  simp only [addIdxGo, List.length_cons, List.length_nil, build_result,
    Option.map_some, c8New_net, c8Old_net]
  norm_num [pyRound1, rhe, maxOf, minOf, List.foldl, max_def, min_def,
    List.getD, List.get?, c8New_net, c8Old_net]

/-! Claim C10: instrument entries are built from non-empty data -/

theorem sortRows_ne_nil (rows : List Rec) (h : rows ≠ []) :
    sortRows rows ≠ [] := by
  intro he
  apply h
  have hl := length_sortRows rows
  rw [he] at hl
  exact List.length_eq_zero.mp hl.symm

theorem dedupRows_ne_nil (l : List Rec) (h : l ≠ []) : dedupRows l ≠ [] := by
  obtain ⟨x, xs, rfl⟩ := List.exists_cons_of_ne_nil h
  show dedupGo [] (x :: xs) ≠ []
  unfold dedupGo
  rw [if_neg (by simp)]
  simp

theorem windowMap_ne_nil (rows : List Rec) (f : Rec → Obs) (h : rows ≠ []) :
    ((dedupRows (sortRows rows)).take 52).map f ≠ [] := by
  have h1 : dedupRows (sortRows rows) ≠ [] :=
    dedupRows_ne_nil _ (sortRows_ne_nil _ h)
  obtain ⟨x, xs, heq⟩ := List.exists_cons_of_ne_nil h1
  rw [heq]
  simp

theorem add_cot_index_ne_nil (weekly : List Obs) (h : weekly ≠ []) :
    add_cot_index weekly ≠ [] := by
  obtain ⟨w, ws, rfl⟩ := List.exists_cons_of_ne_nil h
  rw [add_cot_index_cons]
  simp [addIdxGo]

theorem build_ok_tff (matched : List Rec) (h : matched ≠ []) :
    ∃ res, build_result (add_cot_index (process_tff_rows matched)) =
      some res ∧ res.weeks ≠ [] := by
  have h1 : process_tff_rows matched ≠ [] := windowMap_ne_nil matched toTffObs h
  have h2 : add_cot_index (process_tff_rows matched) ≠ [] :=
    add_cot_index_ne_nil _ h1
  obtain ⟨w, ws, heq⟩ := List.exists_cons_of_ne_nil h2
  rw [heq]
  exact ⟨_, rfl, by simp⟩

theorem build_ok_legacy (matched : List Rec) (h : matched ≠ []) :
    ∃ res, build_result (add_cot_index (process_legacy_rows matched)) =
      some res ∧ res.weeks ≠ [] := by
  have h1 : process_legacy_rows matched ≠ [] :=
    windowMap_ne_nil matched toLegacyObs h
  have h2 : add_cot_index (process_legacy_rows matched) ≠ [] :=
    add_cot_index_ne_nil _ h1
  obtain ⟨w, ws, heq⟩ := List.exists_cons_of_ne_nil h2
  rw [heq]
  exact ⟨_, rfl, by simp⟩

theorem instrFold_ok (tff : List Rec) :
    ∀ (codes : List (String × String)) (acc : List (String × Result)),
      (∀ p ∈ acc, (p.2).weeks ≠ []) →
      ∃ out, instrFold tff codes acc = some out ∧
        ∀ p ∈ out, (p.2).weeks ≠ [] := by
  intro codes
  induction codes with
  | nil => exact fun acc hacc => ⟨acc, rfl, hacc⟩
  | cons c cs ih =>
    intro acc hacc
    by_cases hm : find_rows tff c.2 (NAME_MAP c.1) = []
    · simp only [instrFold, if_pos hm]
      exact ih acc hacc
    · obtain ⟨res, hres, hw⟩ := build_ok_tff _ hm
      simp only [instrFold, if_neg hm, hres]
      apply ih
      intro p hp
      rcases List.mem_append.mp hp with h | h
      · exact hacc p h
      · rw [List.mem_singleton] at h
        rw [h]
        exact hw

/-- Claim C10: `fetch_cot_data` never crashes (the `Option` result is
always `some`), and every instrument entry placed in the output data
mapping has a non-empty `weeks` array — `build_result` is only ever applied
to non-empty sequences, so `latest` and the extrema are well-defined. -/
theorem fetch_data_nonempty_spec (now : String) (tff legacy : List Rec) :
    ∃ env, fetch_cot_data now tff legacy = some env ∧
      ∀ p ∈ env.data, (p.2).weeks ≠ [] := by
  by_cases h0 : tff = []
  · refine ⟨⟨now, some "Could not fetch TFF data", []⟩, ?_, by simp⟩
    rw [fetch_cot_data, if_pos h0]
  · obtain ⟨results, hres, hinv⟩ := instrFold_ok tff TFF_CODES [] (by simp)
    simp only [fetch_cot_data, if_neg h0, hres]
    by_cases hu : find_rows tff USD_CODE (NAME_MAP "USD") ≠ []
    · obtain ⟨res, hbr, hw⟩ := build_ok_tff _ hu
      rw [if_pos hu, hbr]
      refine ⟨_, rfl, fun p hp => ?_⟩
      rcases List.mem_append.mp hp with h | h
      · exact hinv p h
      · rw [List.mem_singleton] at h
        rw [h]
        exact hw
    · rw [if_neg hu]
      by_cases hl : legacy ≠ []
      · rw [if_pos hl]
        by_cases hu2 : find_rows legacy USD_CODE (NAME_MAP "USD") ≠ []
        · obtain ⟨res, hbr, hw⟩ := build_ok_legacy _ hu2
          rw [if_pos hu2, hbr]
          refine ⟨_, rfl, fun p hp => ?_⟩
          rcases List.mem_append.mp hp with h | h
          · exact hinv p h
          · rw [List.mem_singleton] at h
            rw [h]
            exact hw
        · rw [if_neg hu2]
          exact ⟨_, rfl, hinv⟩
      · rw [if_neg hl]
        exact ⟨_, rfl, hinv⟩

end CotFetch
